import Mathlib

/-!
A verification development for the `rqvd` QVD decoder.

The Rust sources are embedded shallowly:

* Machine bytes are `Nat` (each < 256 on real inputs); byte buffers are
  `List Nat`.
* Rust `isize`/`i32` values become `Int`; unsigned sizes become `Nat`.
* `f64` cells are embedded by their IEEE-754 bit pattern (a `Nat` built
  from the 8 little-endian bytes); the decoder only moves those bytes, it
  never computes with the float, so the bit pattern is a faithful image.
* Text cells carry the raw byte segment that `String::from_utf8_lossy`
  would decode; the decoder compares and moves segments, never inspects
  the decoded string, so byte-level identity is a faithful image.
* A Rust panic (slice out of range, integer underflow, `unwrap` on
  `None`, division by zero) is modelled by `Option.none`; fallible
  functions return `Option`.
-/

/-- `CellValue` from `src/types.rs` (and `src/column.rs`).  `Text` holds
the raw UTF-8 bytes, `Float` the IEEE-754 bit pattern. -/
inductive CellValue where
  | Text (bytes : List Nat)
  | Int (val : Int)
  | Float (bits : Nat)
  | Null
deriving DecidableEq

/-- The error kinds of `src/error.rs`: the library's `QvdErrorKind` has
exactly the variants `ReadFile` and `Utf8Error` (no format-error kind). -/
inductive QvdErrorKind where
  | ReadFile
  | Utf8Error
deriving DecidableEq

/-- `QvdFieldHeader` (field metadata parsed from the XML prefix; the
fields used by the decoder, as in the test constructions in
`src/reader.rs`). -/
structure QvdFieldHeader where
  field_name : String
  offset : Nat
  length : Nat
  bit_offset : Nat
  bit_width : Nat
  bias : Int
deriving DecidableEq

/-- `Column` from `src/types.rs`: header name, dictionary of decoded
symbols, and the per-row signed dictionary indexes. -/
structure Column where
  header : String
  symbols : List CellValue
  indexes : List Int
deriving DecidableEq

/-- `QvdDocument` from `src/types.rs`: the ordered decoded columns. -/
structure QvdDocument where
  columns : List Column
deriving DecidableEq

/-- Sequence a panic-able computation over a list: `none` as soon as any
element fails (the panic aborts the whole Rust computation). -/
def mapO (f : α → Option β) : List α → Option (List β)
  | [] => some []
  | x :: xs =>
      (f x).bind fun y => (mapO f xs).bind fun ys => some (y :: ys)

/-- `i32::from_le_bytes` over a 4-element byte list: the little-endian
unsigned value, reinterpreted as a signed 32-bit integer. -/
def i32_of_le (bs : List Nat) : Int :=
  let u : Nat := bs.foldr (fun b acc => b + 256 * acc) 0
  if u < 2 ^ 31 then (u : Int) else (u : Int) - 2 ^ 32

/-- `f64::from_le_bytes` over an 8-element byte list, embedded as the raw
IEEE-754 bit pattern. -/
def u64_of_le (bs : List Nat) : Nat :=
  bs.foldr (fun b acc => b + 256 * acc) 0

/-- The scanning loop of `get_column_values_from_buf` (`src/reader.rs`,
lines 68-120).  `i` is the cursor, `string_start` the recorded start of a
pending text value; `fuel` bounds the number of loop iterations (each
iteration advances `i` by at least one, so `buf.length` iterations always
reach the loop exit; the top-level entry below passes exactly that). -/
def scan_symbols (buf : List Nat) : Nat → Nat → Nat → Option (List CellValue)
  | 0, _, _ => some []
  | fuel + 1, i, string_start =>
      if i < buf.length then
        let b := buf.getD i 0
        if b = 0x00 then
          (scan_symbols buf fuel (i + 1) string_start).bind fun rest =>
            some (CellValue.Text ((buf.drop string_start).take (i - string_start)) :: rest)
        else if b = 0x01 then
          if i + 5 ≤ buf.length then
            (scan_symbols buf fuel (i + 5) string_start).bind fun rest =>
              some (CellValue.Int (i32_of_le ((buf.drop (i + 1)).take 4)) :: rest)
          else none
        else if b = 0x02 then
          if i + 9 ≤ buf.length then
            (scan_symbols buf fuel (i + 9) string_start).bind fun rest =>
              some (CellValue.Float (u64_of_le ((buf.drop (i + 1)).take 8)) :: rest)
          else none
        else if b = 0x04 then scan_symbols buf fuel (i + 1) (i + 1)
        else if b = 0x05 then scan_symbols buf fuel (i + 5) (i + 5)
        else if b = 0x06 then scan_symbols buf fuel (i + 9) (i + 9)
        else scan_symbols buf fuel (i + 1) string_start
      else some []

/-- `get_column_values_from_buf` (`src/reader.rs`): decode one field's
symbol segment into its Dictionary; `none` models a panic (the `0x01` /
`0x02` branches slice past the end of the segment). -/
def get_column_values_from_buf (buf : List Nat) : Option (List CellValue) :=
  scan_symbols buf buf.length 0 0

/-- Modelled from the spec, section 4.1: the symbol-segment decoder as a
branch table on the control byte, written from the spec's bullet list
(terminator, int, float, three string-start markers, ordinary content). -/
def spec_symbol_scan (buf : List Nat) : Nat → Nat → Nat → Option (List CellValue)
  | 0, _, _ => some []
  | fuel + 1, pos, start =>
      match buf.get? pos with
      | none => some []
      | some ctrl =>
          if ctrl = 0 then
            -- terminate the pending text value: bytes strictly between
            -- the recorded string start and the current position
            (spec_symbol_scan buf fuel (pos + 1) start).bind fun rest =>
              some (CellValue.Text ((buf.take pos).drop start) :: rest)
          else if ctrl = 1 then
            -- 4 following bytes, little-endian signed 32-bit integer
            if pos + 5 ≤ buf.length then
              (spec_symbol_scan buf fuel (pos + 5) start).bind fun rest =>
                some (CellValue.Int (i32_of_le ((buf.take (pos + 5)).drop (pos + 1))) :: rest)
            else none
          else if ctrl = 2 then
            -- 8 following bytes, little-endian IEEE-754 double
            if pos + 9 ≤ buf.length then
              (spec_symbol_scan buf fuel (pos + 9) start).bind fun rest =>
                some (CellValue.Float (u64_of_le ((buf.take (pos + 9)).drop (pos + 1))) :: rest)
            else none
          else if ctrl = 4 then
            -- string start with no skipped payload
            spec_symbol_scan buf fuel (pos + 1) (pos + 1)
          else if ctrl = 5 then
            -- 4 skipped payload bytes before the string start
            spec_symbol_scan buf fuel (pos + 5) (pos + 5)
          else if ctrl = 6 then
            -- 8 skipped payload bytes before the string start
            spec_symbol_scan buf fuel (pos + 9) (pos + 9)
          else
            -- ordinary text content
            spec_symbol_scan buf fuel (pos + 1) start

/-- Modelled from the spec: the whole-segment symbol decode. -/
def spec_symbol_decode (buf : List Nat) : Option (List CellValue) :=
  spec_symbol_scan buf buf.length 0 0

/-- Rust `slice::chunks`: consecutive sub-slices of `n` elements, the
last possibly shorter.  (The callers guard `n = 0`, which in Rust
panics, separately.) -/
def chunks (n : Nat) (l : List α) : List (List α) :=
  (List.range ((l.length + n - 1) / n)).map fun k => (l.drop (k * n)).take n

/-- The `Msb0` bit view of one byte: its 8 bits, most significant
first, as 0/1 values. -/
def byte_bits (b : Nat) : List Nat :=
  (List.range 8).map fun j => if b.testBit (7 - j) then 1 else 0

/-- `BitSlice::<Msb0, u8>::from_slice`: the bit string of a byte list,
each byte contributing its bits most-significant first. -/
def bytes_to_bits (l : List Nat) : List Nat :=
  l.flatMap byte_bits

/-- `bitslice_to_u32` (`src/reader.rs`, line 157): fold the bits
most-significant-bit first, `acc = (acc << 1) | bit`. -/
def bitslice_to_u32 (bits : List Nat) : Int :=
  bits.foldl (fun (acc : Int) (b : Nat) => acc * 2 + (b : Int)) 0

/-- `get_row_indexes` (`src/reader.rs`, lines 142-155): per
`record_byte_size` chunk of the row section, reverse the bytes, view as
an `Msb0` bit string, slice `[len - bit_offset - bit_width, len -
bit_offset)`, fold to an unsigned value and add the bias.  `none` models
the panics: division by zero when `record_byte_size = 0`
(`with_capacity(buf.len() / record_byte_size)`) and the `usize`
underflow / out-of-range slice when the bit range does not fit in the
chunk. -/
def get_row_indexes (buf : List Nat) (field : QvdFieldHeader) (record_byte_size : Nat) :
    Option (List Int) :=
  if record_byte_size = 0 then none
  else
    mapO
      (fun chunk =>
        let bits := bytes_to_bits chunk.reverse
        if field.bit_offset + field.bit_width ≤ bits.length then
          let start := bits.length - field.bit_offset
          let stop := start - field.bit_width
          some (bitslice_to_u32 ((bits.drop stop).take (start - stop)) + field.bias)
        else none)
      (chunks record_byte_size buf)

/-- Modelled from the spec, section 4.2: bit `k` (counted from the most
significant bit) of the bit string of a byte list. -/
def bit_at (bytes : List Nat) (k : Nat) : Nat :=
  if (bytes.getD (k / 8) 0).testBit (7 - k % 8) then 1 else 0

/-- Modelled from the spec, section 4.2: one record's signed index.
Reverse the chunk, let `total = record_byte_size * 8`, fold the bits of
the range `[total - bit_offset - bit_width, total - bit_offset)`
most-significant first (`acc = acc*2 + bit`), and add the signed bias. -/
def spec_record_index (field : QvdFieldHeader) (record_byte_size : Nat)
    (chunk : List Nat) : Int :=
  let total := record_byte_size * 8
  let lo := total - field.bit_offset - field.bit_width
  ((List.range field.bit_width).foldl
      (fun acc j => acc * 2 + (bit_at chunk.reverse (lo + j) : Int)) 0) + field.bias

/-- Modelled from the spec, section 4.2: the whole IndexSequence, one
index per record chunk, in order. -/
def spec_row_indexes (buf : List Nat) (field : QvdFieldHeader)
    (record_byte_size : Nat) : List Int :=
  (chunks record_byte_size buf).map (spec_record_index field record_byte_size)

/-- The per-index match of `Column::as_values` / `Column::into_values`
(`src/types.rs` lines 146-162, `src/column.rs` lines 11-27): a negative
index is `Null`; a non-negative one is `symbols.get(i).unwrap()`
(`none` models the unwrap panic on an out-of-range dictionary index). -/
def resolve (symbols : List CellValue) (idx : Int) : Option CellValue :=
  if idx < 0 then some CellValue.Null else symbols.get? idx.toNat

/-- `Column::as_values` (`src/types.rs`): resolve every row index. -/
def Column.as_values (c : Column) : Option (List CellValue) :=
  mapO (resolve c.symbols) c.indexes

/-- `Column::into_values` (`src/column.rs`): identical to `as_values` up
to cloning, which the embedding does not distinguish. -/
def Column.into_values (c : Column) : Option (List CellValue) :=
  mapO (resolve c.symbols) c.indexes

/-- `Column::indexes_to_values` (`src/types.rs` lines 173-182): resolve
an arbitrary list of requested row positions; a position beyond the row
count yields `Null` (the `None` arm of the match). -/
def Column.indexes_to_values (c : Column) (row_indexes : List Nat) :
    Option (List CellValue) :=
  mapO
    (fun idx =>
      match c.indexes.get? idx with
      | some i => if i < 0 then some CellValue.Null else c.symbols.get? i.toNat
      | none => some CellValue.Null)
    row_indexes

/-- `Column::find_row_indexes` (`src/types.rs` lines 184-197): collect
the dictionary positions whose symbol equals the probe, then the row
positions whose index is among them. -/
def Column.find_row_indexes (c : Column) (value : CellValue) : List Nat :=
  let rows :=
    ((c.symbols.enum.filter fun p => p.2 = value).map fun p => (p.1 : Int))
  ((c.indexes.enum.filter fun p => p.2 ∈ rows).map fun p => p.1)

/-- `QvdDocument::find_row_indexes` (`src/types.rs` lines 63-68): find
the first column with the given header and search it; an absent column
gives the empty list (`unwrap_or_default`). -/
def QvdDocument.find_row_indexes (doc : QvdDocument) (column_name : String)
    (value : CellValue) : List Nat :=
  ((doc.columns.find? fun c => c.header = column_name).map
      fun c => c.find_row_indexes value).getD []

/-- `QvdDocument::rows` together with the `RowIter` iteration
(`src/types.rs` lines 24-37 and 93-108): materialize every column, take
`values[0].len()` as the row total (a panic — `none` — when there are no
columns), and yield for each row position the row built from
`col.get(index).unwrap()` across columns. -/
def QvdDocument.rows (doc : QvdDocument) : Option (List (List CellValue)) :=
  (mapO Column.as_values doc.columns).bind fun values =>
    values.head?.bind fun first =>
      mapO (fun k => mapO (fun v => v.get? k) values) (List.range first.length)

/-- `QvdDocument::rows_by_indexes` (`src/types.rs` lines 70-84): same
iteration restricted to the requested row positions. -/
def QvdDocument.rows_by_indexes (doc : QvdDocument) (row_indexes : List Nat) :
    Option (List (List CellValue)) :=
  (mapO (fun c => c.indexes_to_values row_indexes) doc.columns).bind fun values =>
    values.head?.bind fun first =>
      mapO (fun k => mapO (fun v => v.get? k) values) (List.range first.length)

/-- Modelled from the spec, section 4.4: the total materialization of
one cell.  Out-of-range rows and negative indexes give `Null`; on a
well-formed column this agrees with the implementation's `resolve`. -/
def cell_at (c : Column) (k : Nat) : CellValue :=
  match c.indexes.get? k with
  | some i => if i < 0 then CellValue.Null else c.symbols.getD i.toNat CellValue.Null
  | none => CellValue.Null

/-- Well-formedness of a decoded column: every non-negative row index
references an existing dictionary entry (guaranteed by construction from
a well-formed file; spec section 4.4). -/
def wf_column (c : Column) : Prop :=
  ∀ i ∈ c.indexes, 0 ≤ i → i.toNat < c.symbols.length

instance (c : Column) : Decidable (wf_column c) := by
  unfold wf_column
  infer_instance

/-- Rust range slicing `&buf[a..b]`: `none` models the panic when the
range is invalid or past the end. -/
def slice_range (l : List Nat) (a b : Nat) : Option (List Nat) :=
  if a ≤ b ∧ b ≤ l.length then some ((l.drop a).take (b - a)) else none

/-- One field's decode: `Field::from_header_and_symbol_map` slices the
shared symbol section at `[offset, offset + length)`, then the body of
the parallel map in `read_qvd` (`src/reader.rs` lines 24-30) decodes the
symbol segment and the row indexes into a `Column`. -/
def decode_field (symbol_map row_section : List Nat) (record_byte_size : Nat)
    (f : QvdFieldHeader) : Option Column :=
  (slice_range symbol_map f.offset (f.offset + f.length)).bind fun field_buf =>
    (get_column_values_from_buf field_buf).bind fun symbols =>
      (get_row_indexes row_section f record_byte_size).bind fun indexes =>
        some ⟨f.field_name, symbols, indexes⟩

/-- The decode core of `read_qvd` (`src/reader.rs` lines 9-34) after the
file read and XML parse: `split_at(offset)` divides the binary buffer
into symbol section and row section (panicking when `offset` exceeds the
buffer), then every field decodes to a `Column`, in field order.  `none`
models any panic; no error value is ever constructed here. -/
def read_qvd (buf : List Nat) (offset record_byte_size : Nat)
    (fields : List QvdFieldHeader) : Option (List Column) :=
  if offset ≤ buf.length then
    mapO (decode_field (buf.take offset) (buf.drop offset) record_byte_size) fields
  else none

/-- The rayon `into_par_iter().map(..).collect()` of `read_qvd` with an
explicit worker completion order: workers finish in the order given by
`order` (a permutation of the field positions), each tagging its column
with its original field position; `collect` reassembles the columns by
original position. -/
def par_read_qvd (order : List Nat) (buf : List Nat)
    (offset record_byte_size : Nat) (fields : List QvdFieldHeader) :
    Option (List Column) :=
  if offset ≤ buf.length then
    (mapO (fun i => ((fields.get? i).bind
        (decode_field (buf.take offset) (buf.drop offset) record_byte_size)).map
          fun c => (i, c)) order).bind fun tagged =>
      mapO (fun i => tagged.lookup i) (List.range fields.length)
  else none

theorem mapO_nil (f : α → Option β) : mapO f [] = some [] := rfl

theorem mapO_cons (f : α → Option β) (x : α) (xs : List α) :
    mapO f (x :: xs) =
      (f x).bind fun y => (mapO f xs).bind fun ys => some (y :: ys) := rfl

theorem mapO_eq_some_of_forall {f : α → Option β} {g : α → β} :
    ∀ {l : List α}, (∀ x ∈ l, f x = some (g x)) → mapO f l = some (l.map g)
  | [], _ => rfl
  | x :: xs, h => by
      have hx : f x = some (g x) := h x (List.mem_cons_self x xs)
      have hxs : mapO f xs = some (xs.map g) :=
        mapO_eq_some_of_forall fun y hy => h y (List.mem_cons_of_mem x hy)
      simp [mapO_cons, hx, hxs, List.map_cons]

theorem mapO_eq_none_of_mem {f : α → Option β} :
    ∀ {l : List α}, ∀ x ∈ l, f x = none → mapO f l = none := by
  intro l
  induction l with
  | nil => intro x hx; exact absurd hx (List.not_mem_nil x)
  | cons a as ih =>
      intro x hx hfx
      rcases List.mem_cons.mp hx with h | h
      · subst h; simp [mapO_cons, hfx]
      · cases hfa : f a with
        | none => simp [mapO_cons, hfa]
        | some y => simp [mapO_cons, hfa, ih x h hfx]

theorem mapO_length {f : α → Option β} :
    ∀ {l : List α} {ys : List β}, mapO f l = some ys → ys.length = l.length := by
  intro l
  induction l with
  | nil => intro ys h; simp [mapO_nil] at h; simp [← h]
  | cons a as ih =>
      intro ys h
      cases hfa : f a with
      | none => simp [mapO_cons, hfa] at h
      | some y =>
          cases hrest : mapO f as with
          | none => simp [mapO_cons, hfa, hrest] at h
          | some zs =>
              simp [mapO_cons, hfa, hrest] at h
              subst h
              simp [ih hrest]

theorem mapO_get? {f : α → Option β} :
    ∀ {l : List α} {ys : List β}, mapO f l = some ys →
      ∀ k, ys.get? k = (l.get? k).bind f := by
  intro l
  induction l with
  | nil =>
      intro ys h k
      simp [mapO_nil] at h
      subst h
      simp
  | cons a as ih =>
      intro ys h k
      cases hfa : f a with
      | none => simp [mapO_cons, hfa] at h
      | some y =>
          cases hrest : mapO f as with
          | none => simp [mapO_cons, hfa, hrest] at h
          | some zs =>
              simp [mapO_cons, hfa, hrest] at h
              subst h
              cases k with
              | zero => simp [hfa]
              | succ k => simpa using ih hrest k

theorem mapO_mem {f : α → Option β} :
    ∀ {l : List α} {ys : List β}, mapO f l = some ys →
      ∀ y ∈ ys, ∃ x ∈ l, f x = some y := by
  intro l
  induction l with
  | nil =>
      intro ys h y hy
      simp [mapO_nil] at h
      subst h
      exact absurd hy (List.not_mem_nil y)
  | cons a as ih =>
      intro ys h y hy
      cases hfa : f a with
      | none => simp [mapO_cons, hfa] at h
      | some z =>
          cases hrest : mapO f as with
          | none => simp [mapO_cons, hfa, hrest] at h
          | some zs =>
              simp [mapO_cons, hfa, hrest] at h
              subst h
              rcases List.mem_cons.mp hy with h | h
              · exact ⟨a, List.mem_cons_self a as, h ▸ hfa⟩
              · rcases ih hrest y h with ⟨x, hx, hfx⟩
                exact ⟨x, List.mem_cons_of_mem a hx, hfx⟩

theorem mapO_congr {f g : α → Option β} :
    ∀ {l : List α}, (∀ x ∈ l, f x = g x) → mapO f l = mapO g l
  | [], _ => rfl
  | x :: xs, h => by
      have hx : f x = g x := h x (List.mem_cons_self x xs)
      have hxs : mapO f xs = mapO g xs :=
        mapO_congr fun y hy => h y (List.mem_cons_of_mem x hy)
      simp [mapO_cons, hx, hxs]

theorem mapO_map (f : β → Option γ) (g : α → β) :
    ∀ (l : List α), mapO f (l.map g) = mapO (fun x => f (g x)) l
  | [] => rfl
  | x :: xs => by simp [mapO_cons, mapO_map f g xs]

theorem getD_eq_of_get? {l : List Nat} {n b : Nat} (h : l.get? n = some b) :
    l.getD n 0 = b := by
  have hg : l[n]? = some b := by simpa [List.get?_eq_getElem?] using h
  simp [List.getD_eq_getD_get?, List.get?_eq_getElem?, hg]

theorem scan_symbols_eq_spec (buf : List Nat) :
    ∀ fuel i ss, scan_symbols buf fuel i ss = spec_symbol_scan buf fuel i ss := by
  intro fuel
  induction fuel with
  | zero => intro i ss; rfl
  | succ fuel ih =>
      intro i ss
      by_cases hi : i < buf.length
      · cases hb : buf.get? i with
        | none =>
            exact absurd (List.get?_eq_none.mp hb) (by omega)
        | some b =>
            have hgd : buf.getD i 0 = b := getD_eq_of_get? hb
            have hsub4 : i + 5 - (i + 1) = 4 := by omega
            have hsub8 : i + 9 - (i + 1) = 8 := by omega
            simp only [scan_symbols, spec_symbol_scan, if_pos hi, hb, hgd]
            by_cases h0 : b = 0
            · simp [h0, ih, List.drop_take, hsub4, hsub8]
            · by_cases h1 : b = 1
              · simp [h0, h1, ih, List.drop_take, hsub4, hsub8]
              · by_cases h2 : b = 2
                · simp [h0, h1, h2, ih, List.drop_take, hsub4, hsub8]
                · by_cases h4 : b = 4
                  · simp [h0, h1, h2, h4, ih]
                  · by_cases h5 : b = 5
                    · simp [h0, h1, h2, h4, h5, ih]
                    · by_cases h6 : b = 6
                      · simp [h0, h1, h2, h4, h5, h6, ih]
                      · simp [h0, h1, h2, h4, h5, h6, ih]
      · have hb : buf.get? i = none := by rw [List.get?_eq_none]; omega
        simp only [scan_symbols, spec_symbol_scan, if_neg hi, hb]

theorem byte_bits_length (b : Nat) : (byte_bits b).length = 8 := by
  simp [byte_bits]

theorem bytes_to_bits_length (l : List Nat) :
    (bytes_to_bits l).length = 8 * l.length := by
  induction l with
  | nil => rfl
  | cons b bs ih =>
      simp [bytes_to_bits, List.flatMap_cons, byte_bits_length] at ih ⊢
      omega

theorem bytes_to_bits_getD (l : List Nat) (k : Nat) :
    (bytes_to_bits l).getD k 0 = bit_at l k := by
  induction l generalizing k with
  | nil =>
      simp [bytes_to_bits, bit_at, List.getD]
  | cons b bs ih =>
      have hsplit : bytes_to_bits (b :: bs) = byte_bits b ++ bytes_to_bits bs := by
        simp [bytes_to_bits, List.flatMap_cons]
      by_cases hk : k < 8
      · have hk8 : k < (byte_bits b).length := by rw [byte_bits_length]; omega
        rw [hsplit, List.getD_append _ _ _ _ hk8]
        have hdiv : k / 8 = 0 := Nat.div_eq_of_lt hk
        have hmod : k % 8 = k := Nat.mod_eq_of_lt hk
        simp [byte_bits, bit_at, hdiv, hmod, List.getD_eq_getD_get?, List.getElem?_map,
          List.getElem?_range, hk]
      · have hk8 : (byte_bits b).length ≤ k := by rw [byte_bits_length]; omega
        rw [hsplit, List.getD_append_right _ _ _ _ hk8, byte_bits_length]
        rw [ih (k - 8)]
        have hdiv : k / 8 = (k - 8) / 8 + 1 := by omega
        have hmod : k % 8 = (k - 8) % 8 := by omega
        simp [bit_at, hdiv, hmod, List.getD]

theorem drop_take_eq_range_map (l : List Nat) (a w : Nat) (h : a + w ≤ l.length) :
    (l.drop a).take w = (List.range w).map fun j => l.getD (a + j) 0 := by
  apply List.ext_getElem
  · simp
    omega
  · intro i hi1 hi2
    have hlt : a + i < l.length := by
      simp at hi2
      omega
    simp only [List.getElem_take, List.getElem_drop, List.getElem_map, List.getElem_range]
    rw [List.getD_eq_getD_get?, List.get?_eq_getElem?, List.getElem?_eq_getElem hlt]
    rfl

theorem chunks_length_of_mem {rbs : Nat} (h0 : 0 < rbs) {l : List Nat}
    (hdvd : rbs ∣ l.length) : ∀ c ∈ chunks rbs l, c.length = rbs := by
  intro c hc
  obtain ⟨m, hm⟩ := hdvd
  simp only [chunks, List.mem_map, List.mem_range] at hc
  obtain ⟨k, hk, hceq⟩ := hc
  have hcount : (l.length + rbs - 1) / rbs = m := by
    have h1 : l.length + rbs - 1 = rbs * m + (rbs - 1) := by omega
    rw [h1, Nat.mul_add_div h0, Nat.div_eq_of_lt (by omega)]
    omega
  rw [hcount] at hk
  have hle : k * rbs + rbs ≤ l.length := by
    have : (k + 1) * rbs ≤ m * rbs := Nat.mul_le_mul_right rbs hk
    calc k * rbs + rbs = (k + 1) * rbs := by ring
    _ ≤ m * rbs := this
    _ = l.length := by rw [hm]; ring
  rw [← hceq]
  simp
  omega

/-- C1: per full `record_byte_size`-byte chunk of the row section, the
row-index decoder reverses the chunk's bytes, views them as an Msb0 bit
string of `record_byte_size * 8` bits, extracts the bit range
`[total - bit_offset - bit_width, total - bit_offset)`, folds it
most-significant-bit first into an unsigned value, and adds the signed
bias — one signed index per chunk, in order. -/
theorem c1_row_index_decode (buf : List Nat) (field : QvdFieldHeader)
    (record_byte_size : Nat) (h0 : 0 < record_byte_size)
    (hdvd : record_byte_size ∣ buf.length)
    (hfit : field.bit_offset + field.bit_width ≤ record_byte_size * 8) :
    get_row_indexes buf field record_byte_size =
      some (spec_row_indexes buf field record_byte_size) := by
  have hne : record_byte_size ≠ 0 := by omega
  unfold get_row_indexes spec_row_indexes
  rw [if_neg hne]
  apply mapO_eq_some_of_forall
  intro chunk hc
  have hlen : chunk.length = record_byte_size := chunks_length_of_mem h0 hdvd chunk hc
  have hbits : (bytes_to_bits chunk.reverse).length = 8 * record_byte_size := by
    rw [bytes_to_bits_length, List.length_reverse, hlen]
  dsimp only
  rw [if_pos (by rw [hbits]; omega)]
  unfold spec_record_index
  dsimp only
  congr 1
  have hw : (bytes_to_bits chunk.reverse).length - field.bit_offset -
      ((bytes_to_bits chunk.reverse).length - field.bit_offset - field.bit_width) =
      field.bit_width := by omega
  have hstop : (bytes_to_bits chunk.reverse).length - field.bit_offset - field.bit_width =
      record_byte_size * 8 - field.bit_offset - field.bit_width := by omega
  rw [drop_take_eq_range_map _ _ _ (by omega)]
  unfold bitslice_to_u32
  rw [List.foldl_map, hw]
  have hfun : (fun (x : Int) (y : Nat) => x * 2 +
        ((bytes_to_bits chunk.reverse).getD
          ((bytes_to_bits chunk.reverse).length - field.bit_offset - field.bit_width + y) 0 : Int)) =
      fun (x : Int) (y : Nat) => x * 2 +
        (bit_at chunk.reverse (record_byte_size * 8 - field.bit_offset - field.bit_width + y) : Int) := by
    funext x y
    rw [bytes_to_bits_getD, hstop]
  rw [hfun]

/-- Witness for C1: the spec's literal decode vector.  Row-section bytes
`[0x00,0x14,0x00,0x11,0x01,0x22,0x02,0x33,0x13,0x34,0x24,0x35]` with
`record_byte_size = 12`, `bit_offset = 10`, `bit_width = 3`, `bias = 0`
decode to the IndexSequence `[5]`. -/
theorem c1_row_index_decode_witness :
    get_row_indexes [0x00, 0x14, 0x00, 0x11, 0x01, 0x22, 0x02, 0x33, 0x13, 0x34, 0x24, 0x35]
      ⟨"name", 0, 0, 10, 3, 0⟩ 12 = some [5] := by
  rw [c1_row_index_decode _ _ _ (by decide) (by decide) (by decide)]
  decide

/-- C2: the symbol decoder is a single forward scan branching on each
control byte exactly as the spec's branch table describes (proved as an
equality with the spec-modelled scanner for every segment), and the two
literal decode vectors hold: the 0x02 vector yields the two doubles
420.0 and 421.0 (bit patterns 0x407A400000000000 and
0x407A500000000000), the 0x01 vector yields `Int 10` and `Int 20`. -/
theorem c2_symbol_decoder :
    (∀ buf : List Nat, get_column_values_from_buf buf = spec_symbol_decode buf) ∧
    get_column_values_from_buf
        [0x02, 0, 0, 0, 0, 0, 0x40, 0x7a, 0x40, 0x02, 0, 0, 0, 0, 0, 0x50, 0x7a, 0x40] =
      some [CellValue.Float 0x407A400000000000, CellValue.Float 0x407A500000000000] ∧
    get_column_values_from_buf [0x01, 10, 0, 0, 0, 0x01, 20, 0, 0, 0] =
      some [CellValue.Int 10, CellValue.Int 20] :=
  ⟨fun buf => scan_symbols_eq_spec buf buf.length 0 0, by decide, by decide⟩

/-- C10: the numeric branches of the symbol decoder are not total: a
segment whose final control byte 0x01 has fewer than 4 following bytes
(here, none), or whose 0x02 has fewer than 8, makes the payload slice
panic (modelled `none`) instead of producing a value or an error. -/
theorem c10_numeric_branch_panic :
    get_column_values_from_buf [0x01] = none ∧
    get_column_values_from_buf [0x02, 0, 0, 0] = none := by
  exact ⟨by decide, by decide⟩

theorem as_values_wf {c : Column} (h : wf_column c) :
    c.as_values = some (c.indexes.map fun i =>
      if i < 0 then CellValue.Null else c.symbols.getD i.toNat CellValue.Null) := by
  apply mapO_eq_some_of_forall
  intro i hi
  by_cases hneg : i < 0
  · simp [resolve, hneg]
  · have hlt : i.toNat < c.symbols.length := h i hi (by omega)
    simp [resolve, hneg, List.get?_eq_getElem?, List.getElem?_eq_getElem hlt,
      List.getD_eq_getD_get?]

theorem indexes_to_values_wf {c : Column} (h : wf_column c) (req : List Nat) :
    c.indexes_to_values req = some (req.map (cell_at c)) := by
  apply mapO_eq_some_of_forall
  intro idx _
  cases hg : c.indexes.get? idx with
  | none =>
      rw [List.get?_eq_getElem?] at hg
      simp [cell_at, hg]
  | some i =>
      have hmem : i ∈ c.indexes := List.get?_mem hg
      rw [List.get?_eq_getElem?] at hg
      by_cases hneg : i < 0
      · simp [cell_at, hg, hneg]
      · have hlt : i.toNat < c.symbols.length := h i hmem (by omega)
        simp [cell_at, hg, hneg, List.get?_eq_getElem?, List.getElem?_eq_getElem hlt,
          List.getD_eq_getD_get?]

theorem cell_values_get? {c : Column} {k : Nat} (hk : k < c.indexes.length) :
    (c.indexes.map fun i =>
        if i < 0 then CellValue.Null else c.symbols.getD i.toNat CellValue.Null).get? k =
      some (cell_at c k) := by
  cases hg : c.indexes.get? k with
  | none =>
      rw [List.get?_eq_none] at hg
      omega
  | some i =>
      rw [List.get?_eq_getElem?] at hg
      rw [List.get?_eq_getElem?, List.getElem?_map, hg]
      simp [cell_at, hg]

theorem range_map_getD (l : List α) (d : α) (F : α → β) :
    (List.range l.length).map (fun k => F (l.getD k d)) = l.map F := by
  apply List.ext_getElem
  · simp
  · intro i h1 h2
    simp only [List.getElem_map, List.getElem_range]
    congr 1
    rw [List.getD_eq_getD_get?, List.get?_eq_getElem?,
      List.getElem?_eq_getElem (by simpa using h2)]
    rfl

/-- C5: resolving a negative row index yields `Null` regardless of the
dictionary's contents (including an empty dictionary), and resolving a
non-negative index `i` yields the dictionary entry at position `i`;
stated through `Column.as_values`, whose `r`-th output is the resolution
of the `r`-th raw index. -/
theorem c5_null_sentinel (c : Column) (vals : List CellValue) (r : Nat) (idx : Int)
    (hv : c.as_values = some vals) (hr : c.indexes.get? r = some idx) :
    (idx < 0 → vals.get? r = some CellValue.Null) ∧
    (0 ≤ idx → vals.get? r = c.symbols.get? idx.toNat) := by
  have hget := mapO_get? hv r
  rw [hr] at hget
  constructor
  · intro hneg
    rw [hget]
    simp [resolve, hneg]
  · intro hpos
    rw [hget]
    simp [resolve, if_neg (by omega : ¬ idx < 0)]

/-- Witness for C5: an all-null column with an empty dictionary resolves
its (negative-index) row 0 to `Null`. -/
theorem c5_null_sentinel_witness :
    Column.as_values ⟨"allNull", [], [-2]⟩ = some [CellValue.Null] ∧
    ([CellValue.Null] : List CellValue).get? 0 = some CellValue.Null :=
  ⟨by decide,
   (c5_null_sentinel ⟨"allNull", [], [-2]⟩ [CellValue.Null] 0 (-2)
      (by decide) (by decide)).1 (by decide)⟩

/-- C9: on a document with zero columns, both `rows()` and
`rows_by_indexes` panic (they index `values[0]` of an empty vector, the
modelled `none`) instead of yielding an empty sequence or an error. -/
theorem c9_zero_columns_panic (doc : QvdDocument) (req : List Nat)
    (h : doc.columns = []) :
    doc.rows = none ∧ doc.rows_by_indexes req = none := by
  constructor
  · simp [QvdDocument.rows, h, mapO_nil]
  · simp [QvdDocument.rows_by_indexes, h, mapO_nil]

/-- Witness for C9: the concrete empty document. -/
theorem c9_zero_columns_panic_witness :
    QvdDocument.rows ⟨[]⟩ = none ∧ QvdDocument.rows_by_indexes ⟨[]⟩ [0] = none :=
  c9_zero_columns_panic ⟨[]⟩ [0] rfl

/-- C7: `indexes_to_values` returns exactly one resolved value per
requested row position, in request order, with positions at or beyond
the row count resolving to `Null` rather than failing (visible in
`cell_at`, whose out-of-range arm is `Null`); `rows_by_indexes` applies
the same permissive contract across all columns. -/
theorem c7_values_at_permissive (col : Column) (doc : QvdDocument) (req : List Nat)
    (hcol : wf_column col) (hdoc : ∀ c ∈ doc.columns, wf_column c)
    (hne : doc.columns ≠ []) :
    col.indexes_to_values req = some (req.map (cell_at col)) ∧
    doc.rows_by_indexes req =
      some (req.map fun idx => doc.columns.map fun c => cell_at c idx) := by
  refine ⟨indexes_to_values_wf hcol req, ?_⟩
  unfold QvdDocument.rows_by_indexes
  have hvals : mapO (fun c => c.indexes_to_values req) doc.columns =
      some (doc.columns.map fun c => req.map (cell_at c)) :=
    mapO_eq_some_of_forall fun c hc => indexes_to_values_wf (hdoc c hc) req
  rw [hvals]
  obtain ⟨c0, rest, hcols⟩ : ∃ c0 rest, doc.columns = c0 :: rest := by
    cases hcs : doc.columns with
    | nil => exact absurd hcs hne
    | cons a l => exact ⟨a, l, rfl⟩
  rw [hcols]
  simp only [List.map_cons, List.head?_cons, Option.some_bind]
  rw [List.length_map]
  refine Eq.trans (@mapO_eq_some_of_forall _ _ _
    (fun k => (c0 :: rest).map fun c => cell_at c (req.getD k 0))
    (List.range req.length) ?_) ?_
  · intro k hk
    rw [List.mem_range] at hk
    show mapO (fun v => v.get? k) ((c0 :: rest).map fun c => req.map (cell_at c)) =
      some ((c0 :: rest).map fun c => cell_at c (req.getD k 0))
    rw [mapO_map]
    apply mapO_eq_some_of_forall
    intro c _
    have hgetD : req.getD k 0 = req[k] := by
      rw [List.getD_eq_getD_get?, List.get?_eq_getElem?, List.getElem?_eq_getElem hk]
      rfl
    rw [List.get?_eq_getElem?, List.getElem?_map, List.getElem?_eq_getElem hk, hgetD]
    rfl
  · exact congrArg some
      (range_map_getD req 0 fun idx => (c0 :: rest).map fun c => cell_at c idx)

/-- Witness for C7: a one-column document queried at an in-range and an
out-of-range row position; the latter resolves to `Null`. -/
theorem c7_values_at_permissive_witness :
    Column.indexes_to_values ⟨"a", [CellValue.Int 7], [0]⟩ [0, 5] =
      some [CellValue.Int 7, CellValue.Null] ∧
    QvdDocument.rows_by_indexes ⟨[⟨"a", [CellValue.Int 7], [0]⟩]⟩ [0, 5] =
      some [[CellValue.Int 7], [CellValue.Null]] := by
  have h := c7_values_at_permissive ⟨"a", [CellValue.Int 7], [0]⟩
    ⟨[⟨"a", [CellValue.Int 7], [0]⟩]⟩ [0, 5] (by decide) (by decide) (by decide)
  exact ⟨h.1.trans (by decide), h.2.trans (by decide)⟩

/-- C6: for a document whose columns all have `n` rows, `rows()`
produces the finite sequence whose `k`-th element is the ordered list of
every column's resolved value at row `k`, for `k` from `0` to `n - 1`;
as a pure function of the document it is the same sequence on every
call. -/
theorem c6_rows (doc : QvdDocument) (n : Nat) (hne : doc.columns ≠ [])
    (hwf : ∀ c ∈ doc.columns, wf_column c)
    (hlen : ∀ c ∈ doc.columns, c.indexes.length = n) :
    doc.rows = some ((List.range n).map fun k =>
      doc.columns.map fun c => cell_at c k) := by
  unfold QvdDocument.rows
  have hvals : mapO Column.as_values doc.columns =
      some (doc.columns.map fun c => c.indexes.map fun i =>
        if i < 0 then CellValue.Null else c.symbols.getD i.toNat CellValue.Null) :=
    mapO_eq_some_of_forall fun c hc => as_values_wf (hwf c hc)
  rw [hvals]
  obtain ⟨c0, rest, hcols⟩ : ∃ c0 rest, doc.columns = c0 :: rest := by
    cases hcs : doc.columns with
    | nil => exact absurd hcs hne
    | cons a l => exact ⟨a, l, rfl⟩
  rw [hcols]
  simp only [List.map_cons, List.head?_cons, Option.some_bind]
  rw [List.length_map, hlen c0 (by rw [hcols]; exact List.mem_cons_self c0 rest)]
  refine Eq.trans (@mapO_eq_some_of_forall _ _ _
    (fun k => (c0 :: rest).map fun c => cell_at c k)
    (List.range n) ?_) ?_
  · intro k hk
    rw [List.mem_range] at hk
    show mapO (fun v => v.get? k) ((c0 :: rest).map fun c => c.indexes.map fun i =>
        if i < 0 then CellValue.Null else c.symbols.getD i.toNat CellValue.Null) =
      some ((c0 :: rest).map fun c => cell_at c k)
    rw [mapO_map]
    apply mapO_eq_some_of_forall
    intro c hc
    have hkc : k < c.indexes.length := by
      rw [hlen c (hcols.symm ▸ hc)]
      exact hk
    exact cell_values_get? hkc
  · rfl

/-- Witness for C6: a concrete two-column, two-row document. -/
theorem c6_rows_witness :
    QvdDocument.rows ⟨[⟨"a", [CellValue.Int 1, CellValue.Int 2], [0, 1]⟩,
      ⟨"b", [CellValue.Int 3], [0, -2]⟩]⟩ =
      some [[CellValue.Int 1, CellValue.Int 3], [CellValue.Int 2, CellValue.Null]] := by
  rw [c6_rows _ 2 (by decide) (by decide) (by decide)]
  decide

theorem enumFrom_filter_map_fst (p : α → Bool) :
    ∀ (l : List α) (n : Nat),
      ((List.enumFrom n l).filter fun q => p q.2).map (fun q => q.1) =
        ((List.range l.length).filter fun r => ((l.get? r).map p).getD false).map
          (fun r => r + n) := by
  intro l
  induction l with
  | nil => intro n; rfl
  | cons x xs ih =>
      intro n
      have harith : ((fun r : Nat => r + n) ∘ Nat.succ) = fun r : Nat => r + (n + 1) := by
        funext r
        simp [Function.comp]
        omega
      rw [show List.enumFrom n (x :: xs) = (n, x) :: List.enumFrom (n + 1) xs from rfl]
      rw [show (x :: xs).length = xs.length + 1 from rfl, List.range_succ_eq_map]
      rw [List.filter_cons, List.filter_cons]
      have hpred0 : ((((x :: xs).get? 0).map p).getD false) = p x := by simp
      by_cases hp : p x
      · rw [if_pos (by simpa using hp), if_pos (by simpa [hpred0] using hp)]
        rw [List.map_cons, List.map_cons, ih (n + 1)]
        rw [List.filter_map, List.map_map, harith]
        have hpred : ((fun r => (((x :: xs).get? r).map p).getD false) ∘ Nat.succ) =
            fun r => ((xs.get? r).map p).getD false := by
          funext r
          simp [Function.comp]
        rw [hpred]
        simp
      · rw [if_neg (by simpa using hp), if_neg (by simpa [hpred0] using hp)]
        rw [ih (n + 1), List.filter_map, List.map_map, harith]
        have hpred : ((fun r => (((x :: xs).get? r).map p).getD false) ∘ Nat.succ) =
            fun r => ((xs.get? r).map p).getD false := by
          funext r
          simp [Function.comp]
        rw [hpred]

theorem find_row_indexes_wf {c : Column} {v : CellValue} (hwf : wf_column c)
    (hv : v ≠ CellValue.Null) :
    c.find_row_indexes v =
      (List.range c.indexes.length).filter fun r => decide (cell_at c r = v) := by
  unfold Column.find_row_indexes
  show ((c.indexes.enum.filter fun p =>
      decide (p.2 ∈ (c.symbols.enum.filter fun q => decide (q.2 = v)).map fun q => (q.1 : Int))).map
        fun p => p.1) = _
  have hrowsE := enumFrom_filter_map_fst (fun x => decide (x = v)) c.symbols 0
  have hrows_eq : ((c.symbols.enum.filter fun q => decide (q.2 = v)).map fun q => (q.1 : Int)) =
      ((List.range c.symbols.length).filter fun j =>
        ((c.symbols.get? j).map fun x => decide (x = v)).getD false).map fun (j : Nat) => (j : Int) := by
    have h1 : ((c.symbols.enum.filter fun q => decide (q.2 = v)).map fun q => (q.1 : Int)) =
        (((c.symbols.enum.filter fun q => decide (q.2 = v)).map fun q => q.1).map
          fun (j : Nat) => (j : Int)) := by
      rw [List.map_map]
      rfl
    rw [h1, show c.symbols.enum = List.enumFrom 0 c.symbols from rfl, hrowsE, List.map_map]
    congr 1
  rw [hrows_eq]
  have hE := enumFrom_filter_map_fst
    (fun i => decide (i ∈ ((List.range c.symbols.length).filter fun j =>
      ((c.symbols.get? j).map fun x => decide (x = v)).getD false).map fun (j : Nat) => (j : Int)))
    c.indexes 0
  rw [show c.indexes.enum = List.enumFrom 0 c.indexes from rfl, hE]
  have hmapid : ∀ l : List Nat, l.map (fun r => r + 0) = l := by
    intro l
    simp
  rw [hmapid]
  apply List.filter_congr
  intro r hr
  dsimp only
  rw [List.mem_range] at hr
  cases hg : c.indexes.get? r with
  | none =>
      rw [List.get?_eq_none] at hg
      omega
  | some i =>
      have hmem : i ∈ c.indexes := List.get?_mem hg
      simp only [Option.map_some', Option.getD_some]
      apply decide_eq_decide.mpr
      have hcell : cell_at c r = (if i < 0 then CellValue.Null
          else c.symbols.getD i.toNat CellValue.Null) := by
        rw [List.get?_eq_getElem?] at hg
        simp [cell_at, hg]
      constructor
      · intro hi
        rcases List.mem_map.mp hi with ⟨j, hj, hji⟩
        rcases List.mem_filter.mp hj with ⟨hjr, hjp⟩
        rw [List.mem_range] at hjr
        have hjget : c.symbols.get? j = some (c.symbols.getD j CellValue.Null) := by
          rw [List.get?_eq_getElem?, List.getElem?_eq_getElem hjr,
            List.getD_eq_getD_get?, List.get?_eq_getElem?, List.getElem?_eq_getElem hjr]
          rfl
        rw [hjget] at hjp
        simp only [Option.map_some', Option.getD_some, decide_eq_true_eq] at hjp
        have hij : i = (j : Int) := hji ▸ rfl
        rw [hcell, hij]
        rw [if_neg (by omega)]
        simpa using hjp
      · intro hcv
        rw [hcell] at hcv
        by_cases hneg : i < 0
        · rw [if_pos hneg] at hcv
          exact absurd hcv.symm hv
        · rw [if_neg hneg] at hcv
          have hjr : i.toNat < c.symbols.length := hwf i hmem (by omega)
          apply List.mem_map.mpr
          refine ⟨i.toNat, ?_, by omega⟩
          apply List.mem_filter.mpr
          refine ⟨List.mem_range.mpr hjr, ?_⟩
          have hjget : c.symbols.get? i.toNat =
              some (c.symbols.getD i.toNat CellValue.Null) := by
            rw [List.get?_eq_getElem?, List.getElem?_eq_getElem hjr,
              List.getD_eq_getD_get?, List.get?_eq_getElem?, List.getElem?_eq_getElem hjr]
            rfl
          rw [hjget]
          simpa using hcv

/-- C4: `find_row_indexes(c, v)` for non-null `v` returns exactly the
ascending list of row positions whose materialized value equals `v`
(filter of `range` is ascending and exact); an absent column yields the
empty list, and rows with negative indexes (Null cells) are never
returned (their materialized value is `Null ≠ v`). -/
theorem c4_find_row_indexes (doc : QvdDocument) (name : String) (v : CellValue)
    (hwf : ∀ c ∈ doc.columns, wf_column c) (hv : v ≠ CellValue.Null) :
    doc.find_row_indexes name v =
      ((doc.columns.find? fun c => c.header = name).map fun c =>
        (List.range c.indexes.length).filter fun r => decide (cell_at c r = v)).getD [] := by
  unfold QvdDocument.find_row_indexes
  cases hf : doc.columns.find? fun c => decide (c.header = name) with
  | none => simp [hf]
  | some c =>
      have hc : c ∈ doc.columns := List.mem_of_find?_eq_some hf
      simp [hf, find_row_indexes_wf (hwf c hc) hv]

theorem c4_find_row_indexes_witness :
    QvdDocument.find_row_indexes
      ⟨[⟨"q", [CellValue.Int 1, CellValue.Int 2], [0, 1, 0, -2]⟩]⟩ "q" (CellValue.Int 1) =
      [0, 2] := by
  rw [c4_find_row_indexes _ _ _ (by decide) (by decide)]
  decide

theorem get_row_indexes_length {buf : List Nat} {f : QvdFieldHeader} {rbs : Nat}
    {l : List Int} (h : get_row_indexes buf f rbs = some l) :
    l.length = (chunks rbs buf).length := by
  unfold get_row_indexes at h
  by_cases h0 : rbs = 0
  · rw [if_pos h0] at h
    exact absurd h (by simp)
  · rw [if_neg h0] at h
    exact mapO_length h

theorem mapO_eq_range (f : α → Option β) :
    ∀ (l : List α), mapO f l = mapO (fun i => (l.get? i).bind f) (List.range l.length)
  | [] => rfl
  | x :: xs => by
      conv_lhs => rw [mapO_cons, mapO_eq_range f xs]
      rw [show (x :: xs).length = xs.length + 1 from rfl, List.range_succ_eq_map,
        mapO_cons, mapO_map]
      rfl

theorem lookup_table {F : Nat → Option β} :
    ∀ {order : List Nat}, (∀ i ∈ order, (F i).isSome) →
      ∃ tg, mapO (fun i => (F i).map fun c => (i, c)) order = some tg ∧
        ∀ j, tg.lookup j = if j ∈ order then F j else none := by
  intro order
  induction order with
  | nil =>
      intro _
      exact ⟨[], rfl, fun j => by simp⟩
  | cons i os ih =>
      intro hall
      obtain ⟨c, hc⟩ : ∃ c, F i = some c :=
        Option.isSome_iff_exists.mp (hall i (List.mem_cons_self i os))
      obtain ⟨tg, htg, hlk⟩ := ih fun x hx => hall x (List.mem_cons_of_mem i hx)
      refine ⟨(i, c) :: tg, ?_, ?_⟩
      · simp [mapO_cons, hc, htg]
      · intro j
        by_cases hji : j = i
        · subst hji
          simp [List.lookup, hc]
        · have hbeq : (j == i) = false := by simpa using hji
          simp only [List.lookup, hbeq, hlk j]
          have hmem : (j ∈ i :: os) ↔ (j ∈ os) := by
            simp [List.mem_cons, hji]
          exact if_congr hmem.symm rfl rfl

/-- C8: decoding is deterministic despite the field-parallel workers:
for any worker completion order (any permutation of the field
positions), the reassembled column list equals the sequential,
field-order decode — so two runs of the pipeline on the same buffer and
metadata, under any two schedules, produce structurally equal results. -/
theorem c8_parallel_deterministic (order : List Nat) (buf : List Nat)
    (offset record_byte_size : Nat) (fields : List QvdFieldHeader)
    (hperm : List.Perm order (List.range fields.length)) :
    par_read_qvd order buf offset record_byte_size fields =
      read_qvd buf offset record_byte_size fields := by
  unfold par_read_qvd read_qvd
  by_cases hoff : offset ≤ buf.length
  · rw [if_pos hoff, if_pos hoff]
    rw [mapO_eq_range (decode_field (buf.take offset) (buf.drop offset) record_byte_size)
      fields]
    by_cases hall : ∀ i ∈ order,
        ((fields.get? i).bind
          (decode_field (buf.take offset) (buf.drop offset) record_byte_size)).isSome
    · obtain ⟨tg, htg, hlk⟩ := lookup_table hall
      rw [htg]
      rw [show (some tg).bind (fun tagged =>
        mapO (fun i => tagged.lookup i) (List.range fields.length)) =
        mapO (fun i => tg.lookup i) (List.range fields.length) from rfl]
      apply mapO_congr
      intro j hj
      rw [hlk j, if_pos (hperm.mem_iff.mpr hj)]
    · push_neg at hall
      obtain ⟨i, hi, hnone⟩ := hall
      have hFnone : ((fields.get? i).bind
          (decode_field (buf.take offset) (buf.drop offset) record_byte_size)) = none := by
        cases hF : (fields.get? i).bind
            (decode_field (buf.take offset) (buf.drop offset) record_byte_size) with
        | none => rfl
        | some c => rw [hF] at hnone; simp at hnone
      have h1 : mapO (fun i => ((fields.get? i).bind
          (decode_field (buf.take offset) (buf.drop offset) record_byte_size)).map
            fun c => (i, c)) order = none :=
        mapO_eq_none_of_mem i hi (by rw [hFnone]; rfl)
      have h2 : mapO (fun i => (fields.get? i).bind
          (decode_field (buf.take offset) (buf.drop offset) record_byte_size))
          (List.range fields.length) = none :=
        mapO_eq_none_of_mem i (hperm.mem_iff.mp hi) hFnone
      rw [h1, h2]
      rfl
  · rw [if_neg hoff, if_neg hoff]

/-- Witness for C8: a concrete two-field decode with the workers
finishing in reverse order. -/
theorem c8_witness :
    par_read_qvd [1, 0] (List.replicate 12 0) 0 12
        [⟨"a", 0, 0, 0, 0, 0⟩, ⟨"b", 0, 0, 1, 1, 0⟩] =
      read_qvd (List.replicate 12 0) 0 12
        [⟨"a", 0, 0, 0, 0, 0⟩, ⟨"b", 0, 0, 1, 1, 0⟩] :=
  c8_parallel_deterministic [1, 0] (List.replicate 12 0) 0 12
    [⟨"a", 0, 0, 0, 0, 0⟩, ⟨"b", 0, 0, 1, 1, 0⟩] (by decide)

/-- Counterexample for C3: a truncated row section (13 bytes with
`record_byte_size = 12`, so the final chunk has only 1 byte and the
field's bit range does not fit) makes document construction panic
(`none` — a `usize` underflow / out-of-range bit slice), not fail with a
`FormatError`; indeed `read_qvd` constructs no error value at all and
the crate's `QvdErrorKind` has no format-error variant. -/
theorem c3_counterexample :
    read_qvd (List.replicate 13 0) 0 12 [⟨"name", 0, 0, 10, 3, 0⟩] = none := by
  decide

/-- C3 (amended): no length check exists or is needed — whenever the
decode core succeeds, it yields exactly one fully decoded column per
field, and every column's IndexSequence automatically has the same
length (the chunk count of the shared row section), so no partially
decoded or length-inconsistent Document is ever produced; and the
library's error type has no FormatError variant (its only kinds are
`ReadFile` and `Utf8Error`), a malformed or truncated row section
instead aborting the decode with a panic. -/
theorem c3_amended_row_count (buf : List Nat) (offset record_byte_size : Nat)
    (fields : List QvdFieldHeader) (cols : List Column)
    (h : read_qvd buf offset record_byte_size fields = some cols) :
    cols.length = fields.length ∧
    (∀ c ∈ cols, c.indexes.length = (chunks record_byte_size (buf.drop offset)).length) ∧
    (∀ k : QvdErrorKind, k = QvdErrorKind.ReadFile ∨ k = QvdErrorKind.Utf8Error) := by
  unfold read_qvd at h
  by_cases hoff : offset ≤ buf.length
  · rw [if_pos hoff] at h
    refine ⟨mapO_length h, ?_, ?_⟩
    · intro c hc
      rcases mapO_mem h c hc with ⟨f, _, hdec⟩
      unfold decode_field at hdec
      cases hs : slice_range (buf.take offset) f.offset (f.offset + f.length) with
      | none => rw [hs] at hdec; simp at hdec
      | some fb =>
          rw [hs] at hdec
          simp only [Option.some_bind] at hdec
          cases hsym : get_column_values_from_buf fb with
          | none => rw [hsym] at hdec; simp at hdec
          | some symbols =>
              rw [hsym] at hdec
              simp only [Option.some_bind] at hdec
              cases hidx : get_row_indexes (buf.drop offset) f record_byte_size with
              | none => rw [hidx] at hdec; simp at hdec
              | some idxs =>
                  rw [hidx] at hdec
                  simp only [Option.some_bind, Option.some.injEq] at hdec
                  rw [← hdec]
                  exact get_row_indexes_length hidx
    · intro k
      cases k
      · exact Or.inl rfl
      · exact Or.inr rfl
  · rw [if_neg hoff] at h
    exact absurd h (by simp)

/-- Witness for C3 (amended): a successful one-field decode whose
column has one index per record chunk. -/
theorem c3_amended_witness :
    (Column.mk "a" [] [0]).indexes.length = (chunks 12 ((List.replicate 12 0).drop 0)).length :=
  (c3_amended_row_count (List.replicate 12 0) 0 12 [⟨"a", 0, 0, 0, 0, 0⟩]
    [⟨"a", [], [0]⟩] (by decide)).2.1 ⟨"a", [], [0]⟩ (by decide)
